import Mathlib

/-!
Verification of `analyze_courses.py`: a one-shot script that reads a CSV
file of courses, aggregates course counts and duration hours per company
with a `defaultdict`, sorts companies by course count descending, and
prints a fixed-format report to stdout.

The script is embedded shallowly below:
* Python `float` values are modelled by `PyFloat` (finite values as exact
  rationals; `inf`, `-inf` and `nan` as separate constructors).
* The CSV file is modelled as a header row plus data rows of field
  strings; `csv.DictReader`'s per-row dict lookup is `rowDict`.
* The reading loop, the sort and the rendering are `processRows`,
  `sortCompanies` and `reportLines`; the observable behaviour of `main()`
  (stdout lines plus the uncaught exception, if any) is `pymain`.
-/

namespace AnalyzeCourses

/-- Model of a Python float value as produced by `float(...)`: a finite
value (modelled as an exact rational; the binary64 rounding of decimal
literals and of additions is not modelled), positive or negative
infinity, or NaN. -/
inductive PyFloat : Type
  | finite (q : ℚ)
  | inf
  | negInf
  | nan
  deriving DecidableEq, Repr

/-- Addition of Python float values, as used by the `+=` on the hours
accumulators: NaN absorbs, opposite infinities give NaN, an infinity
absorbs finite values, finite values add exactly. -/
def pyAdd : PyFloat → PyFloat → PyFloat
  | .nan, _ => .nan
  | _, .nan => .nan
  | .inf, .negInf => .nan
  | .inf, _ => .inf
  | .negInf, .inf => .nan
  | .negInf, _ => .negInf
  | .finite _, .inf => .inf
  | .finite _, .negInf => .negInf
  | .finite a, .finite b => .finite (a + b)

theorem pyAdd_assoc (a b c : PyFloat) :
    pyAdd (pyAdd a b) c = pyAdd a (pyAdd b c) := by
  cases a <;> cases b <;> cases c <;> simp [pyAdd, add_assoc]

theorem pyAdd_comm (a b : PyFloat) : pyAdd a b = pyAdd b a := by
  cases a <;> cases b <;> simp [pyAdd, add_comm]

theorem pyAdd_zero (a : PyFloat) : pyAdd a (.finite 0) = a := by
  cases a <;> simp [pyAdd]

theorem zero_pyAdd (a : PyFloat) : pyAdd (.finite 0) a = a := by
  cases a <;> simp [pyAdd]

instance : Zero PyFloat := ⟨.finite 0⟩

instance : Add PyFloat := ⟨pyAdd⟩

instance : AddCommMonoid PyFloat where
  add_assoc := pyAdd_assoc
  zero_add := zero_pyAdd
  add_zero := pyAdd_zero
  add_comm := pyAdd_comm
  nsmul := nsmulRec
  nsmul_zero := fun _ => rfl
  nsmul_succ := fun _ _ => rfl

theorem pyAdd_eq_add (a b : PyFloat) : pyAdd a b = a + b := rfl

theorem finite_zero_eq_zero : PyFloat.finite 0 = 0 := rfl

/-- The numeric value of one decimal digit character. -/
def digitVal (c : Char) : Nat := c.toNat - 48

/-- The natural number denoted by a list of decimal digit characters. -/
def digitsToNat (ds : List Char) : Nat :=
  ds.foldl (fun a c => 10 * a + digitVal c) 0

/-- Parse the optional exponent part of a float literal (an `e` or `E`,
an optional sign and at least one digit) and apply it to the mantissa
`m`; the whole remaining input must be consumed. -/
def parseExpPart (m : ℚ) : List Char → Option ℚ
  | [] => some m
  | e :: rest =>
    if e = 'e' ∨ e = 'E' then
      let (sgn, rest') : ℤ × List Char :=
        match rest with
        | '+' :: t => (1, t)
        | '-' :: t => (-1, t)
        | t => (1, t)
      let (ds, rest'') := rest'.span Char.isDigit
      if ds = [] ∨ rest'' ≠ [] then none
      else some (m * (10 : ℚ) ^ (sgn * (digitsToNat ds : ℤ)))
    else none

/-- Parse the digits part of a float literal, digits with an optional
point (at least one digit required overall), followed by the optional
exponent part. -/
def parseMantissa (cs : List Char) : Option ℚ :=
  let (ip, rest) := cs.span Char.isDigit
  match rest with
  | '.' :: rest2 =>
    let (fp, rest3) := rest2.span Char.isDigit
    if ip = [] ∧ fp = [] then none
    else parseExpPart ((digitsToNat (ip ++ fp) : ℚ) / (10 : ℚ) ^ fp.length) rest3
  | _ => if ip = [] then none else parseExpPart (digitsToNat ip : ℚ) rest

/-- Model of Python `float(s)` on the fragment of its input grammar this
program relies on: an optional sign followed by either `inf`, `infinity`
or `nan` (case-insensitive) or a decimal literal with optional point and
exponent. (Surrounding whitespace, underscore digit separators and
non-ASCII digits, which `float` also accepts, are not modelled.)
Returns `none` exactly where `float` raises `ValueError`. -/
def parseFloat (s : String) : Option PyFloat :=
  let (neg, body) : Bool × List Char :=
    match s.data with
    | '+' :: t => (false, t)
    | '-' :: t => (true, t)
    | t => (false, t)
  let low := body.map Char.toLower
  if low = "inf".data ∨ low = "infinity".data then
    some (if neg then .negInf else .inf)
  else if low = "nan".data then some .nan
  else (parseMantissa body).map fun q => .finite (if neg then -q else q)

/-- Errors the script can raise: a `KeyError` when a row dict lacks a
required column name, the `ValueError` raised by `float` on a
non-numeric string, and the `OSError` raised by `open` on a missing or
unreadable file. -/
inductive PyError : Type
  | keyError (key : String)
  | valueError
  | ioError
  deriving DecidableEq, Repr

/-- A parsed CSV file: the header row naming the columns, and the data
rows, each a list of field strings. -/
structure CsvFile where
  header : List String
  rows : List (List String)

/-- Field lookup in the per-row dict that `csv.DictReader` builds by
pairing the header names with the row's fields: the value paired with
the LAST occurrence of `key` in the header (later duplicate column names
overwrite earlier ones in the dict), `none` when the key names no
column. Rows are taken to have at least as many fields as there are
columns; the `restval` padding `DictReader` applies to shorter rows is
not modelled. -/
def rowDict (header fields : List String) (key : String) : Option String :=
  match header, fields with
  | h :: t, f :: fs =>
    match rowDict t fs key with
    | some v => some v
    | none => if h == key then some f else none
  | _, _ => none

/-- The body of the reading loop up to the two lookups and the
conversion (lines 23 and 24 of the script): the row's company and its
duration parsed by `float`, or the exception raised there. -/
def extractRow (header fields : List String) : Except PyError (String × PyFloat) :=
  match rowDict header fields "company" with
  | none => .error (.keyError "company")
  | some c =>
    match rowDict header fields "duration" with
    | none => .error (.keyError "duration")
    | some dstr =>
      match parseFloat dstr with
      | none => .error .valueError
      | some d => .ok (c, d)

/-- One entry of `company_data`: a company key together with its
accumulated course count and hours sum. The entry list is kept in
insertion order, as a Python dict is. -/
structure AggEntry where
  company : String
  courses : Nat
  hours : PyFloat
  deriving DecidableEq, Repr

/-- Lines 25 and 26 of the script on the insertion-ordered entry list:
fetch the entry for `c` (or the `defaultdict` default, a fresh zero
entry appended at the end), increment its count and add `d` to its
hours. -/
def updateAgg (agg : List AggEntry) (c : String) (d : PyFloat) : List AggEntry :=
  if agg.any (fun e => e.company == c) then
    agg.map fun e =>
      if e.company == c then
        { e with courses := e.courses + 1, hours := pyAdd e.hours d }
      else e
  else
    agg ++ [{ company := c, courses := 0 + 1, hours := pyAdd (.finite 0) d }]

/-- The whole reading loop (lines 22 to 26): extract company and parsed
duration from each row in file order, stopping at the first raised
exception, and fold the updates into the initially empty
`company_data`. -/
def processRows (header : List String) (rows : List (List String)) :
    Except PyError (List AggEntry) :=
  rows.foldlM
    (fun agg fields => (extractRow header fields).map fun p => updateAgg agg p.1 p.2) []

/-- The parsing half of the loop in isolation: the company and parsed
duration of every row in file order, or the first exception raised. -/
def parseAll (header : List String) : List (List String) →
    Except PyError (List (String × PyFloat))
  | [] => .ok []
  | r :: t =>
    match extractRow header r with
    | .error e => .error e
    | .ok p =>
      match parseAll header t with
      | .error e => .error e
      | .ok ps => .ok (p :: ps)

/-- The aggregation half of the loop in isolation: fold the parsed
(company, duration) pairs into the entry list. -/
def aggregatePairs (pairs : List (String × PyFloat)) : List AggEntry :=
  pairs.foldl (fun agg p => updateAgg agg p.1 p.2) []

/-- Line 29: sorting the items by course count, descending. Python's
sort is stable and its `reverse` flag reverses the comparison rather
than the result, so this is a stable merge sort under the relation
"left count at least right count". -/
def sortCompanies (agg : List AggEntry) : List AggEntry :=
  agg.mergeSort fun a b => decide (b.courses ≤ a.courses)

/-- The banner: 70 repeated equals signs. -/
def bannerLine : String := String.mk (List.replicate 70 '=')

/-- Left-justify a string to a minimum width, the formatting Python
applies to a string field with a bare width: pads with spaces on the
right, and never truncates a longer string. -/
def ljust (s : String) (n : Nat) : String :=
  s ++ String.mk (List.replicate (n - s.length) ' ')

/-- Right-justify a string to a minimum width, the formatting Python
applies to numeric fields with a width: pads with spaces on the left,
and never truncates a longer string. -/
def rjust (s : String) (n : Nat) : String :=
  String.mk (List.replicate (n - s.length) ' ') ++ s

/-- Round a rational to the nearest integer, ties to even — the
rounding used by fixed-point float formatting. -/
def roundHalfEven (q : ℚ) : ℤ :=
  let f := ⌊q⌋
  let r := q - f
  if r < 1 / 2 then f
  else if 1 / 2 < r then f + 1
  else if f % 2 = 0 then f else f + 1

/-- Fixed-point formatting of a finite value with one decimal digit
(Python's `.1f`, applied to the exact rational; the double rounding a
binary64 representation would introduce is not modelled). -/
def fixed1 (q : ℚ) : String :=
  let n := roundHalfEven (q * 10)
  let mag := n.natAbs
  let core := toString (mag / 10) ++ "." ++ toString (mag % 10)
  if n < 0 ∨ (n = 0 ∧ q < 0) then "-" ++ core else core

/-- Python's `.1f` formatting of a float value: fixed-point for finite
values, `inf`, `-inf` or `nan` otherwise. -/
def fmtFloat1 : PyFloat → String
  | .finite q => fixed1 q
  | .inf => "inf"
  | .negInf => "-inf"
  | .nan => "nan"

/-- Line 45: the per-company line — the company in a string field of
width 20 (left-justified), the count in a decimal field of width 4 and
the hours in a fixed-point field of width 8 with one decimal (both
right-justified). -/
def renderLine (company : String) (courses : Nat) (hours : PyFloat) : String :=
  ljust company 20 ++ ": " ++ rjust (toString courses) 4 ++ " courses  |  "
    ++ rjust (fmtFloat1 hours) 8 ++ " hours"

/-- Lines 37 to 44: `total_courses`, accumulated over the sorted list
while printing. -/
def totalCourses (entries : List AggEntry) : Nat :=
  entries.foldl (fun t e => t + e.courses) 0

/-- Lines 38 to 44: `total_hours`, accumulated over the sorted list
while printing. -/
def totalHours (entries : List AggEntry) : PyFloat :=
  entries.foldl (fun t e => pyAdd t e.hours) (.finite 0)

/-- Line 49: the totals line — the count with no width, the hours in a
fixed-point field with one decimal and no width. -/
def totalLine (tc : Nat) (th : PyFloat) : String :=
  "TOTAL: " ++ toString tc ++ " courses  |  " ++ fmtFloat1 th ++ " hours"

/-- The report printed by lines 32 to 51, one list element per stdout
line: each `print(x)` contributes the line `x`, each bare `print()` an
empty line. -/
def reportLines (agg : List AggEntry) : List String :=
  let entries := sortCompanies agg
  [bannerLine, "COURSES AND HOURS BY COMPANY", bannerLine, ""]
    ++ entries.map (fun e => renderLine e.company e.courses e.hours)
    ++ ["", bannerLine, totalLine (totalCourses entries) (totalHours entries),
        bannerLine, ""]

/-- Line 13: the input path, fixed relative to the directory holding
the script itself. -/
def csvPath (scriptDir : String) : String :=
  scriptDir ++ "/server/knowledge/certifications/complete_courses.csv"

/-- Line 16: the first print emits the reading-file text line and, from
the explicit newline inside it, a following empty line. -/
def readingLines (scriptDir : String) : List String :=
  ["Reading file: " ++ csvPath scriptDir, ""]

/-- The observable behaviour of `main()` as a function of the script's
directory and of the file found at the fixed path (`none` models a
missing or unreadable file, on which `open` raises `OSError`): the
lines written to stdout, and the uncaught exception when the run
aborts. The reading-file line is printed BEFORE the file is opened, so
it appears even on a failing run; the report is printed only after the
whole loop has succeeded. -/
def pymain (scriptDir : String) (file : Option CsvFile) :
    List String × Option PyError :=
  match file with
  | none => (readingLines scriptDir, some .ioError)
  | some f =>
    match processRows f.header f.rows with
    | .error e => (readingLines scriptDir, some e)
    | .ok agg => (readingLines scriptDir ++ reportLines agg, none)

/-- The distinct company keys of the parsed rows in first-appearance
order — the key order a Python dict ends up with after the loop. -/
def keyList (pairs : List (String × PyFloat)) : List String :=
  pairs.foldl (fun acc p => if p.1 ∈ acc then acc else acc ++ [p.1]) []

/-- The number of parsed rows carrying company `c`. -/
def countFor (pairs : List (String × PyFloat)) (c : String) : Nat :=
  (pairs.filter (fun p => p.1 == c)).length

/-- The hours sum of the parsed rows carrying company `c`, accumulated
left to right from `0.0` exactly as the loop does. -/
def hoursFor (pairs : List (String × PyFloat)) (c : String) : PyFloat :=
  ((pairs.filter (fun p => p.1 == c)).map Prod.snd).foldl pyAdd (.finite 0)

/-- The aggregation invariant: the entry list carries exactly the
distinct companies of `pairs`, in first-appearance order, and every
entry holds the row count and the duration sum of its company. -/
def Coherent (pairs : List (String × PyFloat)) (agg : List AggEntry) : Prop :=
  agg.map AggEntry.company = keyList pairs ∧
  ∀ e ∈ agg, e.courses = countFor pairs e.company ∧ e.hours = hoursFor pairs e.company

theorem keyList_append_one (ps : List (String × PyFloat)) (p : String × PyFloat) :
    keyList (ps ++ [p]) =
      if p.1 ∈ keyList ps then keyList ps else keyList ps ++ [p.1] := by
  simp [keyList, List.foldl_append]

theorem mem_keyList_aux (c : String) (ps : List (String × PyFloat)) :
    ∀ acc, c ∈ ps.foldl (fun acc p => if p.1 ∈ acc then acc else acc ++ [p.1]) acc ↔
      c ∈ acc ∨ ∃ p ∈ ps, p.1 = c := by
  induction ps with
  | nil => simp
  | cons q t ih =>
    intro acc
    simp only [List.foldl_cons]
    rw [ih]
    by_cases hq : q.1 ∈ acc
    · rw [if_pos hq]
      constructor
      · rintro (h | ⟨p, hp, rfl⟩)
        · exact Or.inl h
        · exact Or.inr ⟨p, List.mem_cons_of_mem _ hp, rfl⟩
      · rintro (h | ⟨p, hp, rfl⟩)
        · exact Or.inl h
        · rcases List.mem_cons.mp hp with h1 | h1
          · rw [h1]; exact Or.inl hq
          · exact Or.inr ⟨p, h1, rfl⟩
    · rw [if_neg hq]
      simp only [List.mem_append, List.mem_singleton]
      constructor
      · rintro ((h | h) | ⟨p, hp, rfl⟩)
        · exact Or.inl h
        · exact Or.inr ⟨q, List.mem_cons_self q t, h.symm⟩
        · exact Or.inr ⟨p, List.mem_cons_of_mem _ hp, rfl⟩
      · rintro (h | ⟨p, hp, rfl⟩)
        · exact Or.inl (Or.inl h)
        · rcases List.mem_cons.mp hp with h1 | h1
          · rw [h1]; exact Or.inl (Or.inr rfl)
          · exact Or.inr ⟨p, h1, rfl⟩

theorem mem_keyList {c : String} {ps : List (String × PyFloat)} :
    c ∈ keyList ps ↔ ∃ p ∈ ps, p.1 = c := by
  rw [keyList, mem_keyList_aux]
  simp

theorem keyList_nodup_aux (ps : List (String × PyFloat)) :
    ∀ acc : List String, acc.Nodup →
      (ps.foldl (fun acc p => if p.1 ∈ acc then acc else acc ++ [p.1]) acc).Nodup := by
  induction ps with
  | nil => intro acc h; simpa using h
  | cons q t ih =>
    intro acc h
    simp only [List.foldl_cons]
    by_cases hq : q.1 ∈ acc
    · rw [if_pos hq]; exact ih acc h
    · rw [if_neg hq]
      exact ih _ (by simp [List.nodup_append, h, hq])

theorem keyList_nodup (ps : List (String × PyFloat)) : (keyList ps).Nodup :=
  keyList_nodup_aux ps [] List.nodup_nil

theorem countFor_append_one (ps : List (String × PyFloat)) (p : String × PyFloat)
    (c : String) :
    countFor (ps ++ [p]) c = countFor ps c + (if p.1 == c then 1 else 0) := by
  simp only [countFor, List.filter_append, List.length_append]
  by_cases h : p.1 == c <;> simp [List.filter_cons, h]

theorem hoursFor_append_one (ps : List (String × PyFloat)) (p : String × PyFloat)
    (c : String) :
    hoursFor (ps ++ [p]) c =
      if p.1 == c then pyAdd (hoursFor ps c) p.2 else hoursFor ps c := by
  simp only [hoursFor, List.filter_append, List.map_append, List.foldl_append]
  by_cases h : p.1 == c <;> simp [List.filter_cons, h]

theorem countFor_eq_zero {ps : List (String × PyFloat)} {c : String}
    (h : c ∉ keyList ps) : countFor ps c = 0 := by
  have hno : ∀ p ∈ ps, ¬(p.1 == c) = true := by
    intro p hp hpc
    exact h (mem_keyList.mpr ⟨p, hp, by simpa using hpc⟩)
  simp [countFor, List.filter_eq_nil_iff.mpr hno]

theorem hoursFor_eq_zero {ps : List (String × PyFloat)} {c : String}
    (h : c ∉ keyList ps) : hoursFor ps c = .finite 0 := by
  have hno : ∀ p ∈ ps, ¬(p.1 == c) = true := by
    intro p hp hpc
    exact h (mem_keyList.mpr ⟨p, hp, by simpa using hpc⟩)
  simp [hoursFor, List.filter_eq_nil_iff.mpr hno]

theorem coherent_update {ps : List (String × PyFloat)} {agg : List AggEntry}
    {c : String} {d : PyFloat} (h : Coherent ps agg) :
    Coherent (ps ++ [(c, d)]) (updateAgg agg c d) := by
  obtain ⟨hmap, hent⟩ := h
  have hmem : ∀ e ∈ agg, e.company ∈ keyList ps := by
    intro e he
    rw [← hmap]
    exact List.mem_map_of_mem AggEntry.company he
  by_cases hc : c ∈ keyList ps
  · have hany : agg.any (fun e => e.company == c) = true := by
      rw [← hmap] at hc
      rcases List.mem_map.mp hc with ⟨e, he, hec⟩
      exact List.any_eq_true.mpr ⟨e, he, by simp [hec]⟩
    unfold updateAgg
    rw [if_pos hany]
    constructor
    · rw [List.map_map, keyList_append_one, if_pos hc, ← hmap]
      apply List.map_congr_left
      intro e _
      dsimp only [Function.comp]
      split <;> rfl
    · intro e' he'
      rcases List.mem_map.mp he' with ⟨e, he, rfl⟩
      obtain ⟨hcount, hhours⟩ := hent e he
      by_cases hec : e.company = c
      · rw [if_pos (by simp [hec])]
        refine ⟨?_, ?_⟩
        · show e.courses + 1 = _
          rw [countFor_append_one]
          simp [hec, hcount]
        · show pyAdd e.hours d = _
          rw [hoursFor_append_one]
          simp [hec, hhours]
      · rw [if_neg (by simpa using hec)]
        refine ⟨?_, ?_⟩
        · rw [countFor_append_one, if_neg (by simpa using fun h => hec h.symm)]
          simpa using hcount
        · rw [hoursFor_append_one, if_neg (by simpa using fun h => hec h.symm)]
          exact hhours
  · have hany : ¬(agg.any (fun e => e.company == c) = true) := by
      intro hany
      rcases List.any_eq_true.mp hany with ⟨e, he, hec⟩
      exact hc (by simpa using (by simpa using hec : e.company = c) ▸ hmem e he)
    unfold updateAgg
    rw [if_neg hany]
    constructor
    · rw [List.map_append, hmap, keyList_append_one, if_neg hc]
      rfl
    · intro e' he'
      rcases List.mem_append.mp he' with he | he
      · have hne : ¬(c = e'.company) := by
          intro heq
          exact hc (heq ▸ hmem e' he)
        obtain ⟨hcount, hhours⟩ := hent e' he
        refine ⟨?_, ?_⟩
        · rw [countFor_append_one, if_neg (by simpa using hne)]
          simpa using hcount
        · rw [hoursFor_append_one, if_neg (by simpa using hne)]
          exact hhours
      · have he' : e' = { company := c, courses := 0 + 1, hours := pyAdd (.finite 0) d } := by
          simpa using he
        subst he'
        refine ⟨?_, ?_⟩
        · show 0 + 1 = _
          rw [countFor_append_one, countFor_eq_zero hc]
          simp
        · show pyAdd (.finite 0) d = _
          rw [hoursFor_append_one, hoursFor_eq_zero hc]
          simp

theorem coherent_nil : Coherent [] [] := by
  refine ⟨by simp [keyList], by simp⟩

theorem coherent_foldl :
    ∀ (qs ps : List (String × PyFloat)) (agg : List AggEntry), Coherent ps agg →
      Coherent (ps ++ qs) (qs.foldl (fun a p => updateAgg a p.1 p.2) agg) := by
  intro qs
  induction qs with
  | nil => intro ps agg h; simpa using h
  | cons q t ih =>
    intro ps agg h
    have h2 : Coherent (ps ++ [(q.1, q.2)]) (updateAgg agg q.1 q.2) := coherent_update h
    have h3 := ih (ps ++ [(q.1, q.2)]) _ h2
    simpa using h3

/-- The aggregation invariant holds of the loop's result. -/
theorem coherent_aggregate (pairs : List (String × PyFloat)) :
    Coherent pairs (aggregatePairs pairs) := by
  have h := coherent_foldl pairs [] [] coherent_nil
  simpa [aggregatePairs] using h

theorem foldlM_eq_parseAll (header : List String) :
    ∀ (rows : List (List String)) (agg : List AggEntry),
      rows.foldlM
          (fun a fields => (extractRow header fields).map fun p => updateAgg a p.1 p.2) agg
        = (parseAll header rows).map
            (fun pairs => pairs.foldl (fun a p => updateAgg a p.1 p.2) agg) := by
  intro rows
  induction rows with
  | nil => intro agg; rfl
  | cons r t ih =>
    intro agg
    rw [List.foldlM_cons]
    cases hr : extractRow header r with
    | error e =>
      unfold parseAll
      rw [hr]
      rfl
    | ok p =>
      unfold parseAll
      rw [hr]
      show List.foldlM
          (fun a fields => Except.map (fun p => updateAgg a p.1 p.2) (extractRow header fields))
          (updateAgg agg p.1 p.2) t = _
      rw [ih (updateAgg agg p.1 p.2)]
      cases hmt : parseAll header t with
      | error e => rfl
      | ok ps => rfl

/-- Interleaving parsing and aggregation, as the loop does, is the same
as parsing every row first and then aggregating: same first error, same
final state. -/
theorem processRows_eq (header : List String) (rows : List (List String)) :
    processRows header rows = (parseAll header rows).map aggregatePairs :=
  foldlM_eq_parseAll header rows []

theorem processRows_ok_of_parseAll {header : List String}
    {rows : List (List String)} {pairs : List (String × PyFloat)}
    (h : parseAll header rows = .ok pairs) :
    processRows header rows = .ok (aggregatePairs pairs) := by
  rw [processRows_eq, h]
  rfl

theorem processRows_error_of_parseAll {header : List String}
    {rows : List (List String)} {e : PyError}
    (h : parseAll header rows = .error e) :
    processRows header rows = .error e := by
  rw [processRows_eq, h]
  rfl

theorem parseAll_ok_forall₂ {header : List String} :
    ∀ {rows : List (List String)} {pairs : List (String × PyFloat)},
      parseAll header rows = .ok pairs →
      List.Forall₂ (fun r p => extractRow header r = .ok p) rows pairs := by
  intro rows
  induction rows with
  | nil =>
    intro pairs h
    have hp : pairs = [] := by
      have := h.symm
      unfold parseAll at this
      simpa using this
    rw [hp]
    exact List.Forall₂.nil
  | cons r t ih =>
    intro pairs h
    unfold parseAll at h
    cases hr : extractRow header r with
    | error e => simp [hr] at h
    | ok p =>
      simp only [hr] at h
      cases hmt : parseAll header t with
      | error e => simp [hmt] at h
      | ok ps =>
        simp only [hmt] at h
        have hp : pairs = p :: ps := by simpa using h.symm
        rw [hp]
        exact List.Forall₂.cons hr (ih hmt)

theorem extractRow_ok_iff {header fields : List String} {p : String × PyFloat} :
    extractRow header fields = .ok p ↔
      rowDict header fields "company" = some p.1 ∧
      ∃ s, rowDict header fields "duration" = some s ∧ parseFloat s = some p.2 := by
  constructor
  · intro h
    unfold extractRow at h
    cases h1 : rowDict header fields "company" with
    | none => simp [h1] at h
    | some c =>
      simp only [h1] at h
      cases h2 : rowDict header fields "duration" with
      | none => simp [h2] at h
      | some dstr =>
        simp only [h2] at h
        cases h3 : parseFloat dstr with
        | none => simp [h3] at h
        | some d =>
          simp only [h3] at h
          have hp : (c, d) = p := by simpa using h
          refine ⟨?_, dstr, rfl, ?_⟩
          · rw [← hp]
          · rw [← hp]
            exact h3
  · rintro ⟨hc, s, hs, hd⟩
    unfold extractRow
    simp only [hc, hs, hd]

theorem foldl_add_eq_sum {M : Type} [AddCommMonoid M] (l : List M) (i : M) :
    l.foldl (· + ·) i = i + l.sum := by
  induction l generalizing i with
  | nil => simp
  | cons a t ih => simp [List.foldl_cons, ih, add_assoc]

theorem totalCourses_eq_sum (entries : List AggEntry) :
    totalCourses entries = (entries.map AggEntry.courses).sum := by
  unfold totalCourses
  rw [← List.foldl_map AggEntry.courses (· + ·) entries 0, foldl_add_eq_sum]
  simp

theorem totalHours_eq_sum (entries : List AggEntry) :
    totalHours entries = (entries.map AggEntry.hours).sum := by
  show entries.foldl (fun t e => t + e.hours) 0 = (entries.map AggEntry.hours).sum
  rw [← List.foldl_map AggEntry.hours (· + ·) entries 0, foldl_add_eq_sum]
  simp

theorem sortCompanies_perm (agg : List AggEntry) :
    (sortCompanies agg).Perm agg :=
  List.mergeSort_perm agg _

theorem map_eq_self_of {α : Type} {f : α → α} :
    ∀ {l : List α}, (∀ x ∈ l, f x = x) → l.map f = l := by
  intro l
  induction l with
  | nil => intro _; rfl
  | cons a t ih =>
    intro h
    rw [List.map_cons, h a (List.mem_cons_self a t), ih fun x hx => h x (List.mem_cons_of_mem a hx)]

theorem sum_courses_bump (c : String) (d : PyFloat) :
    ∀ (agg : List AggEntry), (agg.map AggEntry.company).Nodup →
      (∃ e ∈ agg, e.company = c) →
      ((agg.map fun e =>
          if e.company == c then
            { e with courses := e.courses + 1, hours := pyAdd e.hours d }
          else e).map AggEntry.courses).sum
        = (agg.map AggEntry.courses).sum + 1 := by
  intro agg
  induction agg with
  | nil => rintro _ ⟨e, he, _⟩; exact absurd he (List.not_mem_nil e)
  | cons a t ih =>
    rintro hnd ⟨e, he, hec⟩
    have hna : a.company ∉ t.map AggEntry.company := by
      rw [List.map_cons] at hnd
      exact (List.nodup_cons.mp hnd).1
    have hndt : (t.map AggEntry.company).Nodup := by
      rw [List.map_cons] at hnd
      exact (List.nodup_cons.mp hnd).2
    simp only [List.map_cons, List.sum_cons]
    by_cases hac : a.company = c
    · rw [if_pos (by simpa using hac)]
      have htail : ∀ x ∈ t,
          (if x.company == c then
            { x with courses := x.courses + 1, hours := pyAdd x.hours d }
          else x) = x := by
        intro x hx
        have hxne : ¬((x.company == c) = true) := by
          simp only [beq_iff_eq]
          intro hxc
          have hmem : x.company ∈ t.map AggEntry.company :=
            List.mem_map_of_mem AggEntry.company hx
          rw [hxc, ← hac] at hmem
          exact hna hmem
        rw [if_neg hxne]
      rw [map_eq_self_of htail]
      show a.courses + 1 + (t.map AggEntry.courses).sum
        = a.courses + (t.map AggEntry.courses).sum + 1
      omega
    · rw [if_neg (by simpa using hac)]
      have het : e ∈ t := by
        rcases List.mem_cons.mp he with h | h
        · exact absurd (h ▸ hec) hac
        · exact h
      rw [ih hndt ⟨e, het, hec⟩]
      omega

theorem sum_hours_bump (c : String) (d : PyFloat) :
    ∀ (agg : List AggEntry), (agg.map AggEntry.company).Nodup →
      (∃ e ∈ agg, e.company = c) →
      ((agg.map fun e =>
          if e.company == c then
            { e with courses := e.courses + 1, hours := pyAdd e.hours d }
          else e).map AggEntry.hours).sum
        = (agg.map AggEntry.hours).sum + d := by
  intro agg
  induction agg with
  | nil => rintro _ ⟨e, he, _⟩; exact absurd he (List.not_mem_nil e)
  | cons a t ih =>
    rintro hnd ⟨e, he, hec⟩
    have hna : a.company ∉ t.map AggEntry.company := by
      rw [List.map_cons] at hnd
      exact (List.nodup_cons.mp hnd).1
    have hndt : (t.map AggEntry.company).Nodup := by
      rw [List.map_cons] at hnd
      exact (List.nodup_cons.mp hnd).2
    simp only [List.map_cons, List.sum_cons]
    by_cases hac : a.company = c
    · rw [if_pos (by simpa using hac)]
      have htail : ∀ x ∈ t,
          (if x.company == c then
            { x with courses := x.courses + 1, hours := pyAdd x.hours d }
          else x) = x := by
        intro x hx
        have hxne : ¬((x.company == c) = true) := by
          simp only [beq_iff_eq]
          intro hxc
          have hmem : x.company ∈ t.map AggEntry.company :=
            List.mem_map_of_mem AggEntry.company hx
          rw [hxc, ← hac] at hmem
          exact hna hmem
        rw [if_neg hxne]
      rw [map_eq_self_of htail]
      show pyAdd a.hours d + (t.map AggEntry.hours).sum
        = a.hours + (t.map AggEntry.hours).sum + d
      rw [pyAdd_eq_add]
      exact add_right_comm a.hours d (t.map AggEntry.hours).sum
    · rw [if_neg (by simpa using hac)]
      have het : e ∈ t := by
        rcases List.mem_cons.mp he with h | h
        · exact absurd (h ▸ hec) hac
        · exact h
      rw [ih hndt ⟨e, het, hec⟩]
      exact (add_assoc a.hours (t.map AggEntry.hours).sum d).symm

theorem sum_courses_updateAgg {agg : List AggEntry} {c : String} (d : PyFloat)
    (hnd : (agg.map AggEntry.company).Nodup) :
    ((updateAgg agg c d).map AggEntry.courses).sum
      = (agg.map AggEntry.courses).sum + 1 := by
  unfold updateAgg
  by_cases hany : agg.any (fun e => e.company == c) = true
  · rw [if_pos hany]
    rcases List.any_eq_true.mp hany with ⟨e, he, hec⟩
    exact sum_courses_bump c d agg hnd ⟨e, he, by simpa using hec⟩
  · rw [if_neg hany]
    rw [List.map_append, List.sum_append]
    simp

theorem sum_hours_updateAgg {agg : List AggEntry} {c : String} (d : PyFloat)
    (hnd : (agg.map AggEntry.company).Nodup) :
    ((updateAgg agg c d).map AggEntry.hours).sum
      = (agg.map AggEntry.hours).sum + d := by
  unfold updateAgg
  by_cases hany : agg.any (fun e => e.company == c) = true
  · rw [if_pos hany]
    rcases List.any_eq_true.mp hany with ⟨e, he, hec⟩
    exact sum_hours_bump c d agg hnd ⟨e, he, by simpa using hec⟩
  · rw [if_neg hany]
    rw [List.map_append, List.sum_append]
    simp [zero_pyAdd]

/-- The companies of the aggregate are pairwise distinct. -/
theorem aggregate_companies_nodup (pairs : List (String × PyFloat)) :
    ((aggregatePairs pairs).map AggEntry.company).Nodup := by
  rw [(coherent_aggregate pairs).1]
  exact keyList_nodup pairs

theorem aggregatePairs_append_one (ps : List (String × PyFloat)) (p : String × PyFloat) :
    aggregatePairs (ps ++ [p]) = updateAgg (aggregatePairs ps) p.1 p.2 := by
  simp [aggregatePairs, List.foldl_append]

/-- The course counts in the aggregate sum to the number of parsed rows. -/
theorem sum_courses_aggregate (pairs : List (String × PyFloat)) :
    ((aggregatePairs pairs).map AggEntry.courses).sum = pairs.length := by
  induction pairs using List.reverseRecOn with
  | nil => rfl
  | append_singleton ps p ih =>
    rw [aggregatePairs_append_one, sum_courses_updateAgg p.2 (aggregate_companies_nodup ps), ih]
    simp

/-- The hours in the aggregate sum to the sum of all parsed durations. -/
theorem sum_hours_aggregate (pairs : List (String × PyFloat)) :
    ((aggregatePairs pairs).map AggEntry.hours).sum = (pairs.map Prod.snd).sum := by
  induction pairs using List.reverseRecOn with
  | nil => rfl
  | append_singleton ps p ih =>
    rw [aggregatePairs_append_one, sum_hours_updateAgg p.2 (aggregate_companies_nodup ps), ih]
    simp

theorem sort_trans :
    ∀ a b c : AggEntry, decide (b.courses ≤ a.courses) = true →
      decide (c.courses ≤ b.courses) = true → decide (c.courses ≤ a.courses) = true := by
  intro a b c hab hbc
  simp only [decide_eq_true_eq] at *
  exact le_trans hbc hab

theorem sort_total :
    ∀ a b : AggEntry,
      (decide (b.courses ≤ a.courses) || decide (a.courses ≤ b.courses)) = true := by
  intro a b
  simp only [Bool.or_eq_true, decide_eq_true_eq]
  exact Nat.le_total b.courses a.courses

/-- The sorted list is in non-increasing course-count order. -/
theorem sortCompanies_pairwise (agg : List AggEntry) :
    List.Pairwise (fun a b => b.courses ≤ a.courses) (sortCompanies agg) := by
  have h := List.sorted_mergeSort sort_trans sort_total agg
  exact h.imp fun hab => by simpa using hab

/-- Stability: two entries with equal course counts keep their relative
order from the aggregate. -/
theorem sortCompanies_stable {agg : List AggEntry} {e₁ e₂ : AggEntry}
    (hc : e₁.courses = e₂.courses) (hsub : [e₁, e₂].Sublist agg) :
    [e₁, e₂].Sublist (sortCompanies agg) := by
  apply List.sublist_mergeSort sort_trans sort_total ?_ hsub
  simp [List.pairwise_cons, hc]

theorem rowDict_eq_none {key : String} :
    ∀ (header fields : List String), key ∉ header → rowDict header fields key = none := by
  intro header
  induction header with
  | nil => intro fields _; cases fields <;> rfl
  | cons h t ih =>
    intro fields hk
    cases fields with
    | nil => rfl
    | cons f fs =>
      unfold rowDict
      rw [ih fs fun hmem => hk (List.mem_cons_of_mem h hmem)]
      have hne : ¬((h == key) = true) := by
        simp only [beq_iff_eq]
        intro he
        exact hk (he ▸ List.mem_cons_self h t)
      rw [if_neg hne]

theorem rowDict_isSome {key : String} :
    ∀ (header fields : List String), key ∈ header → header.length ≤ fields.length →
      ∃ v, rowDict header fields key = some v := by
  intro header
  induction header with
  | nil => intro fields hk _; exact absurd hk (List.not_mem_nil key)
  | cons h t ih =>
    intro fields hk hlen
    cases fields with
    | nil => simp at hlen
    | cons f fs =>
      unfold rowDict
      by_cases hkt : key ∈ t
      · obtain ⟨v, hv⟩ := ih fs hkt (by simpa using hlen)
        exact ⟨v, by rw [hv]⟩
      · have hkh : h = key := by
          rcases List.mem_cons.mp hk with h1 | h1
          · exact h1.symm
          · exact absurd h1 hkt
        cases hrd : rowDict t fs key with
        | some v => exact ⟨v, rfl⟩
        | none => exact ⟨f, by simp [hkh]⟩

theorem parseAll_error_prefix {header : List String} :
    ∀ (pre : List (List String)) (bad : List String) (post : List (List String)),
      (∀ r ∈ pre, ∃ p, extractRow header r = .ok p) →
      ∀ {err : PyError}, extractRow header bad = .error err →
        parseAll header (pre ++ bad :: post) = .error err := by
  intro pre
  induction pre with
  | nil =>
    intro bad post _ err hbad
    show parseAll header (bad :: post) = .error err
    unfold parseAll
    rw [hbad]
  | cons r t ih =>
    intro bad post hpre err hbad
    obtain ⟨p, hp⟩ := hpre r (List.mem_cons_self r t)
    show parseAll header (r :: (t ++ bad :: post)) = .error err
    unfold parseAll
    rw [hp, ih bad post (fun x hx => hpre x (List.mem_cons_of_mem r hx)) hbad]

/-- A line starting with the reading-file text differs from any string
whose first character is not the letter R. -/
theorem reading_line_ne (s t : String) (h : t.data.head? ≠ some 'R') :
    "Reading file: " ++ s ≠ t := by
  intro he
  apply h
  rw [← he]
  obtain ⟨l⟩ := s
  rfl

/-- The concrete scenario of the spec: header plus three data rows over
two companies. -/
def exHeader : List String := ["company", "duration"]

/-- The three data rows of the concrete scenario. -/
def exRows : List (List String) :=
  [["Acme", "2.5"], ["Acme", "1.5"], ["Globex", "3.0"]]

/-- The parsed (company, duration) pairs of the concrete scenario. -/
def exPairs : List (String × PyFloat) :=
  [("Acme", .finite (5 / 2)), ("Acme", .finite (3 / 2)), ("Globex", .finite 3)]

/-- C1: for every valid input file (all rows extract and parse, i.e. the
parsing pass returns the pair list), the loop succeeds and the aggregate
it builds has exactly one entry per distinct company value seen (its key
list is the duplicate-free first-appearance key list), each entry's
course count is the number of rows carrying that company and its hours
the sum of those rows' parsed durations; the pairs are exactly the rows'
extracted company values and parsed duration values. -/
theorem aggregation_invariant (header : List String) (rows : List (List String))
    (pairs : List (String × PyFloat)) (h : parseAll header rows = .ok pairs) :
    processRows header rows = .ok (aggregatePairs pairs) ∧
    List.Forall₂ (fun r p => rowDict header r "company" = some p.1 ∧
      ∃ s, rowDict header r "duration" = some s ∧ parseFloat s = some p.2) rows pairs ∧
    (aggregatePairs pairs).map AggEntry.company = keyList pairs ∧
    ((aggregatePairs pairs).map AggEntry.company).Nodup ∧
    (∀ c, c ∈ (aggregatePairs pairs).map AggEntry.company ↔ ∃ p ∈ pairs, p.1 = c) ∧
    ∀ e ∈ aggregatePairs pairs,
      e.courses = countFor pairs e.company ∧ e.hours = hoursFor pairs e.company := by
  have hco := coherent_aggregate pairs
  refine ⟨processRows_ok_of_parseAll h, ?_, hco.1, aggregate_companies_nodup pairs, ?_, hco.2⟩
  · exact (parseAll_ok_forall₂ h).imp fun _ _ hr => extractRow_ok_iff.mp hr
  · intro c
    rw [hco.1]
    exact mem_keyList

theorem aggregation_invariant_witness :
    parseAll exHeader exRows = .ok exPairs ∧
    ((aggregatePairs exPairs).map AggEntry.company = keyList exPairs ∧
      ∀ e ∈ aggregatePairs exPairs,
        e.courses = countFor exPairs e.company ∧
        e.hours = hoursFor exPairs e.company) :=
  ⟨by with_unfolding_all rfl,
   (aggregation_invariant exHeader exRows exPairs (by with_unfolding_all rfl)).2.2.1,
   (aggregation_invariant exHeader exRows exPairs (by with_unfolding_all rfl)).2.2.2.2.2⟩

/-- C2: for every valid input file, the grand totals accumulated while
printing satisfy: the course total is the number of data rows, and the
hours total is the exact sum of all parsed duration values. -/
theorem grand_totals (header : List String) (rows : List (List String))
    (pairs : List (String × PyFloat)) (h : parseAll header rows = .ok pairs) :
    processRows header rows = .ok (aggregatePairs pairs) ∧
    totalCourses (sortCompanies (aggregatePairs pairs)) = rows.length ∧
    totalHours (sortCompanies (aggregatePairs pairs)) = (pairs.map Prod.snd).sum := by
  refine ⟨processRows_ok_of_parseAll h, ?_, ?_⟩
  · rw [totalCourses_eq_sum]
    have hperm := (sortCompanies_perm (aggregatePairs pairs)).map AggEntry.courses
    rw [hperm.sum_eq, sum_courses_aggregate]
    exact ((parseAll_ok_forall₂ h).length_eq).symm
  · rw [totalHours_eq_sum]
    have hperm := (sortCompanies_perm (aggregatePairs pairs)).map AggEntry.hours
    rw [hperm.sum_eq, sum_hours_aggregate]

theorem grand_totals_witness :
    parseAll exHeader exRows = .ok exPairs ∧
    (totalCourses (sortCompanies (aggregatePairs exPairs)) = exRows.length ∧
      totalHours (sortCompanies (aggregatePairs exPairs)) = (exPairs.map Prod.snd).sum) :=
  ⟨by with_unfolding_all rfl,
   (grand_totals exHeader exRows exPairs (by with_unfolding_all rfl)).2⟩

/-- C3: for every valid input file, the printed per-company order is
non-increasing in course count for every adjacent (indeed every) pair,
and entries with equal counts keep their relative order from the
aggregate, whose key order is the first-appearance order of the input
(stable sort keyed only on course count). -/
theorem sorted_report_order (header : List String) (rows : List (List String))
    (pairs : List (String × PyFloat)) (h : parseAll header rows = .ok pairs) :
    processRows header rows = .ok (aggregatePairs pairs) ∧
    (aggregatePairs pairs).map AggEntry.company = keyList pairs ∧
    List.Pairwise (fun a b => b.courses ≤ a.courses)
      (sortCompanies (aggregatePairs pairs)) ∧
    ∀ e₁ e₂ : AggEntry, e₁.courses = e₂.courses →
      [e₁, e₂].Sublist (aggregatePairs pairs) →
      [e₁, e₂].Sublist (sortCompanies (aggregatePairs pairs)) :=
  ⟨processRows_ok_of_parseAll h, (coherent_aggregate pairs).1,
    sortCompanies_pairwise _, fun _ _ hc hs => sortCompanies_stable hc hs⟩

theorem sorted_report_order_witness :
    parseAll exHeader exRows = .ok exPairs ∧
    List.Pairwise (fun a b => b.courses ≤ a.courses)
      (sortCompanies (aggregatePairs exPairs)) :=
  ⟨by with_unfolding_all rfl,
   (sorted_report_order exHeader exRows exPairs (by with_unfolding_all rfl)).2.2.1⟩

theorem pymain_some (d : String) (f : CsvFile) :
    pymain d (some f) =
      match processRows f.header f.rows with
      | .error e => (readingLines d, some e)
      | .ok agg => (readingLines d ++ reportLines agg, none) := rfl

theorem banner_not_mem_readingLines (d : String) :
    bannerLine ∉ readingLines d := by
  intro hmem
  rcases List.mem_cons.mp hmem with h1 | h1
  · exact reading_line_ne (csvPath d) bannerLine (by decide) h1.symm
  · rcases List.mem_cons.mp h1 with h2 | h2
    · exact absurd h2 (by decide)
    · exact absurd h2 (List.not_mem_nil _)

theorem title_not_mem_readingLines (d : String) :
    "COURSES AND HOURS BY COMPANY" ∉ readingLines d := by
  intro hmem
  rcases List.mem_cons.mp hmem with h1 | h1
  · exact reading_line_ne (csvPath d) "COURSES AND HOURS BY COMPANY" (by decide) h1.symm
  · rcases List.mem_cons.mp h1 with h2 | h2
    · exact absurd h2 (by decide)
    · exact absurd h2 (List.not_mem_nil _)

/-- C4: a data row whose duration field does not parse as a float makes
the run fail with the value error raised at that row (all rows before it
extract and parse fine), and no report line — banner, title, per-company
line or totals line — is printed: the whole stdout is the reading-file
line and its trailing blank. -/
theorem value_error_aborts (d : String) (header : List String)
    (pre post : List (List String)) (bad : List String)
    (hpre : ∀ r ∈ pre, ∃ p, extractRow header r = .ok p)
    (hbad : extractRow header bad = .error .valueError) :
    processRows header (pre ++ bad :: post) = .error .valueError ∧
    pymain d (some ⟨header, pre ++ bad :: post⟩) = (readingLines d, some .valueError) ∧
    bannerLine ∉ (pymain d (some ⟨header, pre ++ bad :: post⟩)).1 ∧
    "COURSES AND HOURS BY COMPANY" ∉ (pymain d (some ⟨header, pre ++ bad :: post⟩)).1 := by
  have herr : parseAll header (pre ++ bad :: post) = .error .valueError :=
    parseAll_error_prefix pre bad post hpre hbad
  have hproc := processRows_error_of_parseAll herr
  have hmain : pymain d (some ⟨header, pre ++ bad :: post⟩) =
      (readingLines d, some .valueError) := by
    rw [pymain_some]
    dsimp only
    rw [hproc]
  refine ⟨hproc, hmain, ?_, ?_⟩
  · rw [hmain]
    exact banner_not_mem_readingLines d
  · rw [hmain]
    exact title_not_mem_readingLines d

theorem value_error_aborts_witness :
    extractRow exHeader ["Acme", "abc"] = .error .valueError ∧
    processRows exHeader ([["Acme", "2.5"]] ++ ["Acme", "abc"] :: [["Globex", "3.0"]])
      = .error .valueError ∧
    pymain "/app" (some ⟨exHeader, [["Acme", "2.5"]] ++ ["Acme", "abc"] :: [["Globex", "3.0"]]⟩)
      = (readingLines "/app", some .valueError) := by
  have h := value_error_aborts "/app" exHeader [["Acme", "2.5"]] [["Globex", "3.0"]]
    ["Acme", "abc"]
    (fun r hr => by
      have hr' : r = ["Acme", "2.5"] := by simpa using hr
      rw [hr']
      exact ⟨("Acme", .finite (5 / 2)), by with_unfolding_all rfl⟩)
    (by with_unfolding_all rfl)
  exact ⟨by with_unfolding_all rfl, h.1, h.2.1⟩

theorem append_mk_nil (s : String) : s ++ String.mk [] = s := by
  obtain ⟨l⟩ := s
  show String.mk (l ++ []) = String.mk l
  rw [List.append_nil]

theorem mk_nil_append (s : String) : String.mk [] ++ s = s := by
  obtain ⟨l⟩ := s
  show String.mk ([] ++ l) = String.mk l
  rw [List.nil_append]

theorem data_append (a b : String) : (a ++ b).data = a.data ++ b.data := by
  obtain ⟨x⟩ := a
  obtain ⟨y⟩ := b
  rfl

theorem ljust_eq (s : String) (n : Nat) :
    ljust s n =
      if s.length < n then s ++ String.mk (List.replicate (n - s.length) ' ')
      else s := by
  unfold ljust
  by_cases h : s.length < n
  · rw [if_pos h]
  · rw [if_neg h, Nat.sub_eq_zero_of_le (le_of_not_lt h)]
    exact append_mk_nil s

theorem rjust_eq (s : String) (n : Nat) :
    rjust s n =
      if s.length < n then String.mk (List.replicate (n - s.length) ' ') ++ s
      else s := by
  unfold rjust
  by_cases h : s.length < n
  · rw [if_pos h]
  · rw [if_neg h, Nat.sub_eq_zero_of_le (le_of_not_lt h)]
    exact mk_nil_append s

/-- The per-company line as the claim words it: the company name
left-padded (spaces added on the left) and truncated to a fixed width of
exactly 20 characters, the count right-aligned to 4 digits and the hours
right-aligned in width 8 with one decimal place. -/
def claimedLine (company : String) (courses : Nat) (hours : PyFloat) : String :=
  rjust (String.mk (company.data.take 20)) 20 ++ ": " ++ rjust (toString courses) 4
    ++ " courses  |  " ++ rjust (fmtFloat1 hours) 8 ++ " hours"

/-- The per-company line as the code actually formats it: the company
name left-justified, padded on the RIGHT with spaces to a MINIMUM width
of 20 characters and never truncated; the count right-aligned to minimum
width 4 and the hours right-aligned to minimum width 8 with one decimal
place. -/
def amendedLine (company : String) (courses : Nat) (hours : PyFloat) : String :=
  (if company.length < 20 then
    company ++ String.mk (List.replicate (20 - company.length) ' ')
  else company)
    ++ ": "
    ++ (if (toString courses).length < 4 then
        String.mk (List.replicate (4 - (toString courses).length) ' ') ++ toString courses
      else toString courses)
    ++ " courses  |  "
    ++ (if (fmtFloat1 hours).length < 8 then
        String.mk (List.replicate (8 - (fmtFloat1 hours).length) ' ') ++ fmtFloat1 hours
      else fmtFloat1 hours)
    ++ " hours"

/-- C5 counterexample: the code's line is NOT the claimed
left-padded-and-truncated one — a 4-character name is padded on the
right, not the left, and a 26-character name is printed in full, not
truncated to 20. -/
theorem render_line_claim_counterexample :
    renderLine "Acme" 2 (.finite 4) ≠ claimedLine "Acme" 2 (.finite 4) ∧
    renderLine "ABCDEFGHIJKLMNOPQRSTUVWXYZ" 1 (.finite 4) ≠
      claimedLine "ABCDEFGHIJKLMNOPQRSTUVWXYZ" 1 (.finite 4) ∧
    renderLine "Acme" 2 (.finite 4)
      = "Acme                :    2 courses  |       4.0 hours" := by
  refine ⟨?_, ?_, ?_⟩ <;> with_unfolding_all decide

/-- C5 amended: each per-company line lays the company name out
left-justified and padded on the right with spaces to a minimum width of
20 (never truncated — the full name is always a prefix of the line),
the count right-aligned to minimum width 4, and the hours right-aligned
to minimum width 8 with one decimal place, in the layout
company, colon, count, `courses`, bar, hours, `hours`. -/
theorem render_line_amended (company : String) (courses : Nat) (hours : PyFloat) :
    renderLine company courses hours = amendedLine company courses hours ∧
    (renderLine company courses hours).data.take company.data.length = company.data := by
  constructor
  · unfold renderLine amendedLine
    simp only [ljust_eq, rjust_eq]
  · unfold renderLine ljust
    simp only [data_append, String.length]
    rw [List.append_assoc, List.append_assoc, List.append_assoc, List.append_assoc,
      List.append_assoc]
    exact List.take_left company.data _

/-- C6 counterexample: on a missing input file the program does NOT
produce "no output at all" — the reading-file line (printed before the
`open` call) and its trailing blank line are on stdout. -/
theorem missing_file_claim_counterexample :
    (pymain "/app" none).1 ≠ [] ∧
    pymain "/app" none =
      (["Reading file: /app/server/knowledge/certifications/complete_courses.csv", ""],
        some .ioError) := by
  refine ⟨?_, ?_⟩ <;> with_unfolding_all decide

/-- C6 amended: on a missing or unreadable input file the run aborts
fatally with the I/O error, and the only stdout output produced before
aborting is the reading-file line and its trailing blank line — no
report line (banner, title, per-company line or totals line) is
printed. -/
theorem missing_file_behavior (d : String) :
    pymain d none = (["Reading file: " ++ csvPath d, ""], some .ioError) ∧
    (pymain d none).1.length = 2 ∧
    bannerLine ∉ (pymain d none).1 ∧
    "COURSES AND HOURS BY COMPANY" ∉ (pymain d none).1 :=
  ⟨rfl, rfl, banner_not_mem_readingLines d, title_not_mem_readingLines d⟩

/-- C7: when the header lacks a `company` or a `duration` column and
there is at least one data row (with at least as many fields as the
header has columns), the run fails on that first row with a `KeyError`
for one of the two required columns, before any report line is
printed. -/
theorem schema_error (d : String) (header fields : List String)
    (rest : List (List String))
    (hmiss : "company" ∉ header ∨ "duration" ∉ header)
    (hlen : header.length ≤ fields.length) :
    ∃ k, (k = "company" ∨ k = "duration") ∧
      processRows header (fields :: rest) = .error (.keyError k) ∧
      pymain d (some ⟨header, fields :: rest⟩) =
        (readingLines d, some (.keyError k)) := by
  have hex : ∃ k, (k = "company" ∨ k = "duration") ∧
      extractRow header fields = .error (.keyError k) := by
    by_cases hc : "company" ∈ header
    · rcases hmiss with hm | hm
      · exact absurd hc hm
      · obtain ⟨v, hv⟩ := rowDict_isSome header fields hc hlen
        refine ⟨"duration", Or.inr rfl, ?_⟩
        unfold extractRow
        simp only [hv, rowDict_eq_none header fields hm]
    · refine ⟨"company", Or.inl rfl, ?_⟩
      unfold extractRow
      simp only [rowDict_eq_none header fields hc]
  obtain ⟨k, hk, hex⟩ := hex
  have herr : parseAll header (fields :: rest) = .error (.keyError k) :=
    parseAll_error_prefix [] fields rest
      (fun r hr => absurd hr (List.not_mem_nil r)) hex
  have hproc := processRows_error_of_parseAll herr
  refine ⟨k, hk, hproc, ?_⟩
  rw [pymain_some]
  dsimp only
  rw [hproc]

theorem schema_error_witness :
    ("duration" ∉ (["company"] : List String)) ∧
    (["company"] : List String).length ≤ (["Acme"] : List String).length ∧
    ∃ k, (k = "company" ∨ k = "duration") ∧
      processRows ["company"] [["Acme"]] = .error (.keyError k) ∧
      pymain "/app" (some ⟨["company"], [["Acme"]]⟩) =
        (readingLines "/app", some (.keyError k)) :=
  ⟨by decide, by decide,
    schema_error "/app" ["company"] ["Acme"] [] (Or.inr (by decide)) (by decide)⟩

/-- C8: a file with only a header row and zero data rows succeeds: the
report has zero per-company lines and its totals line reads exactly
`TOTAL: 0 courses  |  0.0 hours`. -/
theorem empty_file_report (d : String) (header : List String) :
    pymain d (some ⟨header, []⟩) =
      (readingLines d ++ [bannerLine, "COURSES AND HOURS BY COMPANY", bannerLine, "",
        "", bannerLine, "TOTAL: 0 courses  |  0.0 hours", bannerLine, ""], none) := by
  rw [pymain_some]
  dsimp only
  have hpr : processRows header [] = .ok [] := rfl
  rw [hpr]
  show (readingLines d ++ reportLines [], none) = _
  have hrep : reportLines ([] : List AggEntry) =
      [bannerLine, "COURSES AND HOURS BY COMPANY", bannerLine, "", "", bannerLine,
        "TOTAL: 0 courses  |  0.0 hours", bannerLine, ""] := by
    with_unfolding_all rfl
  rw [hrep]

/-- C9: the run is deterministic — the stdout lines and exit behaviour
are a function of the script directory and the bytes of the input file
alone, so two runs over the same unmodified contents produce identical
output. -/
theorem deterministic_output (d : String) (f₁ f₂ : Option CsvFile) (h : f₁ = f₂) :
    pymain d f₁ = pymain d f₂ := by
  rw [h]

theorem deterministic_output_witness :
    pymain "/app" (some ⟨exHeader, exRows⟩) = pymain "/app" (some ⟨exHeader, exRows⟩) :=
  deterministic_output "/app" (some ⟨exHeader, exRows⟩) (some ⟨exHeader, exRows⟩) rfl

/-- The second concrete scenario: durations that parse as a negative
number, infinity and NaN. -/
def exRows2 : List (List String) :=
  [["Acme", "-2"], ["Acme", "inf"], ["Globex", "nan"]]

/-- The parsed pairs of the second scenario. -/
def exPairs2 : List (String × PyFloat) :=
  [("Acme", .finite (-2)), ("Acme", .inf), ("Globex", .nan)]

/-- C10: every row whose duration field parses as a float — the parsing
pass succeeds, with no restriction on sign or finiteness, and the
strings `-2`, `inf` and `nan` do parse — raises no error; each parsed
value is added to its company's hours and to the grand total. The
non-negativity stated in the data model is never checked. -/
theorem no_value_validation (header : List String) (rows : List (List String))
    (pairs : List (String × PyFloat)) (h : parseAll header rows = .ok pairs) :
    processRows header rows = .ok (aggregatePairs pairs) ∧
    (∀ e ∈ aggregatePairs pairs, e.hours = hoursFor pairs e.company) ∧
    totalHours (sortCompanies (aggregatePairs pairs)) = (pairs.map Prod.snd).sum ∧
    parseFloat "-2" = some (.finite (-2)) ∧
    parseFloat "inf" = some .inf ∧
    parseFloat "nan" = some .nan := by
  refine ⟨processRows_ok_of_parseAll h,
    fun e he => ((coherent_aggregate pairs).2 e he).2, ?_, ?_, ?_, ?_⟩
  · rw [totalHours_eq_sum]
    have hperm := (sortCompanies_perm (aggregatePairs pairs)).map AggEntry.hours
    rw [hperm.sum_eq, sum_hours_aggregate]
  · with_unfolding_all rfl
  · with_unfolding_all rfl
  · with_unfolding_all rfl

theorem no_value_validation_witness :
    parseAll exHeader exRows2 = .ok exPairs2 ∧
    processRows exHeader exRows2 = .ok (aggregatePairs exPairs2) ∧
    totalHours (sortCompanies (aggregatePairs exPairs2)) = (exPairs2.map Prod.snd).sum :=
  ⟨by with_unfolding_all rfl,
   (no_value_validation exHeader exRows2 exPairs2 (by with_unfolding_all rfl)).1,
   (no_value_validation exHeader exRows2 exPairs2 (by with_unfolding_all rfl)).2.2.1⟩

end AnalyzeCourses
